import Mathlib

/-
Verification of the HelixRun credential mirror store.

Shallow embedding of the Go sources:
  internal/cliproxy/repo/auth/store.go      (namespace AuthRepo)
  internal/store/postgres_token_store.go    (namespace PgStore)
  the credentials HTTP handler              (namespace Credentials)

Modelling conventions:
  * The store runs on Linux, so filepath.FromSlash / filepath.ToSlash are the
    identity and the separator is always the character '/' .  Paths are Lean
    strings; the Go path/filepath functions (Clean, Join, Rel, IsAbs) are
    re-implemented below at the character level, faithful to the Go stdlib
    algorithms for slash-separated paths.
  * Machine time is a Nat (UTC instants); the Go zero time is 0.
  * Go []byte / JSON payloads: a JSON map value (map[string]any) becomes an
    association list over JVal, where JVal models a JSON value as either a
    string or an opaque non-string value (the code only ever inspects map
    values through string type assertions).  A mirrored file holds either
    empty content or a JSON object; the database payload column stores the
    marshalled Auth record, modelled as the Auth value itself (marshalling is
    injective on the fields the code reads back).
  * The SQL table is an association list keyed by the id column.  INSERT ..
    ON CONFLICT (id) DO UPDATE updates every listed column but never
    created_at, exactly as in the schema of persistRecord.
  * I/O errors other than fs.ErrNotExist (disk faults, permissions) are not
    representable: os.Remove / os.WriteFile / os.MkdirAll always succeed in
    the model, and os.ReadFile fails exactly on a missing key in the
    file-system map.  Database queries never fail.
-/

deriving instance DecidableEq for Except

namespace HelixRun

/-! ### Association lists (Go maps and SQL tables keyed by strings) -/

def lookupKey {α : Type} : List (String × α) → String → Option α
  | [], _ => none
  | (k, v) :: rest, key => if k = key then some v else lookupKey rest key

def insertKey {α : Type} (key : String) (val : α) : List (String × α) → List (String × α)
  | [] => [(key, val)]
  | (k, v) :: rest => if k = key then (key, val) :: rest else (k, v) :: insertKey key val rest

def eraseKey {α : Type} (key : String) : List (String × α) → List (String × α)
  | [] => []
  | (k, v) :: rest => if k = key then eraseKey key rest else (k, v) :: eraseKey key rest

/-! ### Go strings helpers (strings.TrimSpace, ToLower, Contains, HasPrefix) -/

def isSpaceChar (c : Char) : Bool :=
  c = ' ' || c = '\t' || c = '\n' || c = '\r' || c = '\x0b' || c = '\x0c'

/-- strings.TrimSpace (ASCII whitespace model). -/
def goTrim (s : String) : String :=
  String.mk ((((s.data.dropWhile isSpaceChar).reverse).dropWhile isSpaceChar).reverse)

/-- The A-Z table of ASCII lower-casing. -/
def lowerPairs : List (Char × Char) :=
  [('A', 'a'), ('B', 'b'), ('C', 'c'), ('D', 'd'), ('E', 'e'), ('F', 'f'), ('G', 'g'),
   ('H', 'h'), ('I', 'i'), ('J', 'j'), ('K', 'k'), ('L', 'l'), ('M', 'm'), ('N', 'n'),
   ('O', 'o'), ('P', 'p'), ('Q', 'q'), ('R', 'r'), ('S', 's'), ('T', 't'), ('U', 'u'),
   ('V', 'v'), ('W', 'w'), ('X', 'x'), ('Y', 'y'), ('Z', 'z')]

def lowerLook (c : Char) : List (Char × Char) → Char
  | [] => c
  | (u, l) :: rest => if c = u then l else lowerLook c rest

/-- ASCII lower-casing of one character (unicode.ToLower restricted to ASCII). -/
def lowerChar (c : Char) : Char := lowerLook c lowerPairs

/-- strings.ToLower (ASCII model). -/
def goToLower (s : String) : String :=
  String.mk (s.data.map lowerChar)

/-- Does the character list start with the pattern? (strings.HasPrefix core). -/
def startsWithSeg : List Char → List Char → Bool
  | [], _ => true
  | _ :: _, [] => false
  | p :: ps, c :: cs => p = c && startsWithSeg ps cs

/-- Does the pattern occur as a contiguous sublist? (strings.Contains core). -/
def hasSub (pat : List Char) : List Char → Bool
  | [] => startsWithSeg pat []
  | c :: cs => startsWithSeg pat (c :: cs) || hasSub pat cs

/-- strings.Contains. -/
def strContains (s pat : String) : Bool := hasSub pat.data s.data

/-- strings.HasPrefix. -/
def strStartsWith (s pat : String) : Bool := startsWithSeg pat.data s.data

/-! ### Go path/filepath on Linux slash paths, at the character level -/

/-- Split on '/', auxiliary: first segment plus remaining segments. -/
def splitSlashAux : List Char → List Char × List (List Char)
  | [] => ([], [])
  | c :: cs =>
      let r := splitSlashAux cs
      if c = '/' then ([], r.1 :: r.2) else (c :: r.1, r.2)

/-- Split a character list on '/' (never returns the empty list). -/
def splitSlash (l : List Char) : List (List Char) :=
  (splitSlashAux l).1 :: (splitSlashAux l).2

/-- Join segments with '/' between them. -/
def joinSegs : List (List Char) → List Char
  | [] => []
  | [s] => s
  | s :: rest => s ++ '/' :: joinSegs rest

def isRooted : List Char → Bool
  | [] => false
  | c :: _ => c = '/'

/-- One step of Go path.Clean: push a segment onto the (reversed) output
    stack, eliminating "." and empty segments and resolving ".." . -/
def cleanStep (rooted : Bool) (stack : List (List Char)) (seg : List Char) : List (List Char) :=
  if seg = [] ∨ seg = ['.'] then stack
  else if seg = ['.', '.'] then
    match stack with
    | [] => if rooted then [] else [['.', '.']]
    | top :: rest => if top = ['.', '.'] then ['.', '.'] :: top :: rest else rest
  else seg :: stack

def cleanSegs (rooted : Bool) (segs : List (List Char)) : List (List Char) :=
  (segs.foldl (cleanStep rooted) []).reverse

def renderSegs (rooted : Bool) (segs : List (List Char)) : List Char :=
  match segs with
  | [] => if rooted then ['/'] else ['.']
  | _ => if rooted then '/' :: joinSegs segs else joinSegs segs

def cleanChars (l : List Char) : List Char :=
  match l with
  | [] => ['.']
  | _ => renderSegs (isRooted l) (cleanSegs (isRooted l) (splitSlash l))

/-- filepath.Clean. -/
def goClean (p : String) : String := String.mk (cleanChars p.data)

/-- filepath.IsAbs. -/
def goIsAbs (p : String) : Bool := isRooted p.data

/-- filepath.Join of two elements. -/
def goJoin (a b : String) : String :=
  if a = "" then (if b = "" then "" else goClean b)
  else goClean (a ++ "/" ++ b)

/-- Drop the common leading segments of two segment lists
    (the common-prefix scan inside filepath.Rel). -/
def dropShared : List (List Char) → List (List Char) → List (List Char) × List (List Char)
  | a :: as, b :: bs => if a = b then dropShared as bs else (a :: as, b :: bs)
  | as, bs => (as, bs)

/-- filepath.Rel (no volume names on Linux). -/
def goRel (basep targp : String) : Except String String :=
  let base := goClean basep
  let targ := goClean targp
  if targ = base then .ok "."
  else
    let base := if base = "." then "" else base
    let targ := if targ = "." then "" else targ
    if (isRooted base.data) ≠ (isRooted targ.data) then
      .error ("Rel: cannot make " ++ targp ++ " relative to " ++ basep)
    else
      let bs := (splitSlash base.data).filter (fun s => !s.isEmpty)
      let ts := (splitSlash targ.data).filter (fun s => !s.isEmpty)
      let rem := dropShared bs ts
      if rem.1.head? = some ['.', '.'] then
        .error ("Rel: cannot make " ++ targp ++ " relative to " ++ basep)
      else
        .ok (String.mk (joinSegs (List.replicate rem.1.length ['.', '.'] ++ rem.2)))

/-! ### Canonical identifiers (forward-slash, cleaned, no dot / dot-dot segments) -/

def canonSeg (s : List Char) : Bool :=
  if s = [] ∨ s = ['.'] ∨ s = ['.', '.'] then false else true

/-- A canonical relative identifier: nonempty, not rooted, already clean,
    no "." / ".." segments.  This is the shape of every id the store itself
    produces (outputs of filepath.Rel followed by ToSlash). -/
def canonRel (p : String) : Bool := (splitSlash p.data).all canonSeg

/-- A canonical absolute directory: '/' followed by canonical segments
    (the shape of the auth dir after filepath.Abs + Clean). -/
def canonAbs (p : String) : Bool :=
  match p.data with
  | [] => false
  | c :: rest => c = '/' && (splitSlash rest).all canonSeg

/-! ### JSON values, auth records, database rows -/

/-- A JSON value as the store observes it: a string, or an opaque
    non-string value (the code only uses string type assertions). -/
inductive JVal where
  | str (s : String)
  | other (n : Nat)
deriving DecidableEq, Repr

/-- Content of a mirrored file: empty, or a JSON object. -/
inductive FileContent where
  | empty
  | obj (m : List (String × JVal))
deriving DecidableEq, Repr

structure FileEntry where
  content : FileContent
  mtime : Nat
deriving DecidableEq, Repr

/-- coreauth.Auth (the fields this repository reads or writes). -/
structure Auth where
  id : String
  provider : String
  label : String
  status : String
  fileName : String
  attributes : Option (List (String × String))
  metadata : Option (List (String × JVal))
  createdAt : Nat
  updatedAt : Nat
  disabled : Bool
deriving DecidableEq, Repr

/-- coreauth.StatusActive. -/
def statusActive : String := "active"

/-- A row of the provider_credentials table. -/
structure Row where
  provider : String
  label : String
  fileName : String
  payload : Auth
  createdAt : Nat
  updatedAt : Nat
deriving DecidableEq, Repr

namespace AuthRepo

/-! ## internal/cliproxy/repo/auth/store.go -/

/-- The Store: mirror root directory, mirrored files, provider_credentials
    table.  (The sql.DB handle and mutex have no observable pure content.) -/
structure StoreState where
  root : String
  fs : List (String × FileEntry)
  db : List (String × Row)
deriving DecidableEq, Repr

/-- Lines 365-368 of resolvePath: the trimmed FileName, falling back to the
    trimmed ID when blank. -/
def effectiveName (auth : Auth) : String :=
  let fileName := goTrim auth.fileName
  if fileName = "" then goTrim auth.id else fileName

/-- resolvePath (store.go:361-377).  FromSlash/ToSlash are the identity. -/
def resolvePath (root : String) (auth : Auth) : Except String (String × String) :=
  let fileName := effectiveName auth
  if fileName = "" then .error "auth store: missing file name"
  else if strContains fileName ".." then
    .error ("auth store: invalid relative path " ++ fileName)
  else .ok (goJoin root fileName, fileName)

/-- relativeName (store.go:379-392). -/
def relativeName (root : String) (pathArg : String) : Except String String :=
  let path := if goIsAbs pathArg then pathArg else goJoin root pathArg
  let clean := goClean path
  match goRel root clean with
  | .error e => .error e
  | .ok rel =>
      if strStartsWith rel ".." then
        .error ("auth store: path " ++ path ++ " outside auth dir")
      else .ok rel

/-- ensureAbsolute (store.go:394-399). -/
def ensureAbsolute (root : String) (path : String) : String :=
  if goIsAbs path then goClean path else goJoin root path

/-- normalizeProvider (store.go:438-445). -/
def normalizeProvider (value : Option JVal) : String :=
  match value with
  | some (.str s) => if goTrim s ≠ "" then goToLower (goTrim s) else "unknown"
  | _ => "unknown"

/-- preferredLabel (store.go:447-457). -/
def preferredLabel (meta : List (String × JVal)) : String :=
  match lookupKey meta "label" with
  | some (.str v) =>
      if goTrim v ≠ "" then goTrim v
      else match lookupKey meta "email" with
        | some (.str v) =>
            if goTrim v ≠ "" then goTrim v
            else match lookupKey meta "project_id" with
              | some (.str v) => if goTrim v ≠ "" then goTrim v else ""
              | _ => ""
        | _ =>
            match lookupKey meta "project_id" with
            | some (.str v) => if goTrim v ≠ "" then goTrim v else ""
            | _ => ""
  | _ =>
      match lookupKey meta "email" with
      | some (.str v) =>
          if goTrim v ≠ "" then goTrim v
          else match lookupKey meta "project_id" with
            | some (.str v) => if goTrim v ≠ "" then goTrim v else ""
            | _ => ""
      | _ =>
          match lookupKey meta "project_id" with
          | some (.str v) => if goTrim v ≠ "" then goTrim v else ""
          | _ => ""

/-- The INSERT .. ON CONFLICT (id) DO UPDATE of persistRecord: every column
    is replaced except id and created_at. -/
def upsertRow (key : String) (r : Row) : List (String × Row) → List (String × Row)
  | [] => [(key, r)]
  | (k, old) :: rest =>
      if k = key then (k, { r with createdAt := old.createdAt }) :: rest
      else (k, old) :: upsertRow key r rest

/-- persistRecord (store.go:329-352): marshals the auth as the payload and
    upserts the row keyed by auth.ID with the provider lower-cased. -/
def persistRecord (db : List (String × Row)) (auth : Auth) : List (String × Row) :=
  let rel := if auth.fileName = "" then auth.id else auth.fileName
  upsertRow auth.id
    { provider := goToLower (goTrim auth.provider)
      label := auth.label
      fileName := rel
      payload := auth
      createdAt := auth.createdAt
      updatedAt := auth.updatedAt } db

/-- applyMirrorPath (store.go:419-436). -/
def applyMirrorPath (root : String) (auth : Auth) (relName : String) : Auth :=
  let name := if relName = "" then goTrim auth.fileName else relName
  let name := if name = "" then auth.id else name
  { auth with
    fileName := name
    attributes := some (insertKey "path" (goJoin root name) (auth.attributes.getD [])) }

/-- Get (store.go:206-234): row lookup by primary key; sql.ErrNoRows becomes
    the not-found sentinel (ok none); unmarshalling the payload recovers the
    stored Auth. -/
def Get (st : StoreState) (idArg : String) : Except String (Option Auth) :=
  let id := goTrim idArg
  if id = "" then .error "auth store: id required"
  else
    match lookupKey st.db id with
    | none => .ok none
    | some row => .ok (some (applyMirrorPath st.root row.payload row.fileName))

/-- Save (store.go:237-290).  Returns the Go (path, error) pair together with
    the resulting store state (the state is unchanged whenever an error is
    returned, matching the early returns in the source).  writeMetadata's
    temp-file-plus-rename becomes an atomic map insert stamped with `now`. -/
def Save (st : StoreState) (now : Nat) (auth : Auth) :
    Except String (String × Auth) × StoreState :=
  if goTrim auth.id = "" then (.error "auth store: id required", st)
  else
    match resolvePath st.root auth with
    | .error e => (.error e, st)
    | .ok (path, rel) =>
        if auth.disabled then
          (.ok ("", auth),
           { st with fs := eraseKey path st.fs, db := eraseKey rel st.db })
        else
          let md := auth.metadata.getD []
          let auth' := { auth with
            metadata := some md
            createdAt := if auth.createdAt = 0 then now else auth.createdAt
            updatedAt := now
            status := if auth.status = "" ∧ auth.disabled = false then statusActive else auth.status
            fileName := rel
            attributes := some (insertKey "path" path (auth.attributes.getD [])) }
          (.ok (path, auth'),
           { st with
               fs := insertKey path { content := .obj md, mtime := now } st.fs
               db := persistRecord st.db auth' })

/-- The coreauth.Auth record built for an ingested file (store.go:151-161). -/
def ingestedAuth (full rel : String) (metadata : List (String × JVal)) (mod : Nat) : Auth :=
  { id := rel
    provider := normalizeProvider (lookupKey metadata "type")
    label := preferredLabel metadata
    status := statusActive
    fileName := rel
    attributes := some [("path", full)]
    metadata := some metadata
    createdAt := mod
    updatedAt := mod
    disabled := false }

/-- The body of the PersistAuthFiles loop for one path (store.go:115-165).
    Reading a missing file is the fs.ErrNotExist branch; a present file's
    modification time is its stored mtime (the os.Stat immediately after a
    successful read). -/
def processPath (st : StoreState) (raw : String) : Except String Unit × StoreState :=
  let path := goTrim raw
  if path = "" then (.ok (), st)
  else
    let full := ensureAbsolute st.root path
    match lookupKey st.fs full with
    | none =>
        match relativeName st.root full with
        | .ok rel => (.ok (), { st with db := eraseKey rel st.db })
        | .error _ => (.ok (), st)
    | some entry =>
        match entry.content with
        | .empty => (.ok (), st)
        | .obj metadata =>
            let mod := entry.mtime
            match relativeName st.root full with
            | .error e => (.error e, st)
            | .ok relName =>
                (.ok (), { st with db := persistRecord st.db (ingestedAuth full relName metadata mod) })

/-- PersistAuthFiles (store.go:108-167): process the paths in order, aborting
    on the first error. -/
def PersistAuthFiles (st : StoreState) : List String → Except String Unit × StoreState
  | [] => (.ok (), st)
  | p :: rest =>
      match processPath st p with
      | (.ok _, st') => PersistAuthFiles st' rest
      | (.error e, st') => (.error e, st')

end AuthRepo

namespace PgStore

/-! ## internal/store/postgres_token_store.go (the rebuild direction) -/

/-- The PostgresTokenStore: the mirrored auth directory and its files
    (raw byte payloads). -/
structure PState where
  authDir : String
  fs : List (String × String)
deriving DecidableEq, Repr

/-- absoluteAuthPath (postgres_token_store.go:387-404). -/
def absoluteAuthPath (dir : String) (id : String) : Except String String :=
  let clean := goClean id
  if strStartsWith clean ".." then
    .error ("postgres token store: invalid auth identifier " ++ id)
  else
    let path := goJoin dir clean
    match goRel dir path with
    | .error e => .error e
    | .ok rel =>
        if strStartsWith rel ".." then
          .error "postgres token store: resolved auth path escapes auth directory"
        else .ok path

/-- One row of the SyncFromDatabase loop: skip unresolvable identifiers,
    otherwise write the raw content at the resolved path. -/
def syncRow (dir : String) (fs : List (String × String)) (row : String × String) :
    List (String × String) :=
  match absoluteAuthPath dir row.1 with
  | .error _ => fs
  | .ok path => insertKey path row.2 fs

/-- SyncFromDatabase (postgres_token_store.go:129-171): wipe and recreate the
    auth directory, then write each row's content to its resolved path.
    The row set stands in for the SELECT id, content result. -/
def SyncFromDatabase (st : PState) (rows : List (String × String)) :
    Except String Unit × PState :=
  (.ok (), { st with fs := rows.foldl (syncRow st.authDir) [] })

end PgStore

namespace Credentials

/-! ## The credentials HTTP handler (CRUD facade) -/

/-- The decoded POST /api/credentials body. -/
structure CredentialRequest where
  id : String
  provider : String
  label : String
  attributes : Option (List (String × String))
  metadata : Option (List (String × JVal))
  disabled : Bool
deriving DecidableEq, Repr

/-- createCredential (handler, lines 111-150): validation and normalization
    of the request into the Auth handed to the auth-registration path.
    `uuid` stands for uuid.NewString(), `now` for time.Now().UTC(). -/
def createCredentialAuth (req : CredentialRequest) (uuid : String) (now : Nat) :
    Except String Auth :=
  let provider := goTrim req.provider
  if provider = "" then .error "provider is required"
  else
    let attrs := req.attributes.getD []
    let md0 := req.metadata.getD []
    let md := if (lookupKey md0 "type").isSome then md0
              else insertKey "type" (JVal.str provider) md0
    let id0 := goTrim req.id
    let id := if id0 = "" then goToLower provider ++ "-" ++ uuid ++ ".json" else id0
    .ok { id := id
          provider := provider
          label := goTrim req.label
          status := statusActive
          fileName := id
          attributes := some attrs
          metadata := some md
          createdAt := now
          updatedAt := now
          disabled := req.disabled }

/-- strings.SplitN(s, " ", 2) core: break at the first space. -/
def breakAtSpace : List Char → Option (List Char × List Char)
  | [] => none
  | c :: rest =>
      if c = ' ' then some ([], rest)
      else (breakAtSpace rest).map (fun p => (c :: p.1, p.2))

def splitN2Space (s : String) : List String :=
  match breakAtSpace s.data with
  | none => [s]
  | some (a, b) => [String.mk a, String.mk b]

/-- strings.EqualFold (ASCII model). -/
def asciiEqFold (a b : String) : Bool := goToLower a = goToLower b

/-- subtle.ConstantTimeCompare(x, y) == 1: walks both byte slices and
    reports whether they are equal in length and content. -/
def constantTimeCompareEq : List Char → List Char → Bool
  | [], [] => true
  | a :: as, b :: bs => (a = b) && constantTimeCompareEq as bs
  | _, _ => false

/-- The candidate secret extraction inside authorize (handler lines 199-209):
    X-Management-Key first, else the Authorization header with an optional
    case-insensitive Bearer prefix. -/
def authCandidate (xkey authHeader : String) : String :=
  let candidate := goTrim xkey
  if candidate = "" then
    let ah := goTrim authHeader
    if ah = "" then ""
    else
      match splitN2Space ah with
      | [p1, p2] => if asciiEqFold p1 "bearer" then goTrim p2 else ah
      | _ => ah
  else candidate

/-- authorize (handler lines 194-211). -/
def authorize (managementKey xkey authHeader : String) : Bool :=
  let key := goTrim managementKey
  if key = "" then true
  else constantTimeCompareEq (authCandidate xkey authHeader).data key.data

end Credentials

/-! ### Concrete stores and records used in witnesses and counterexamples -/

def emptyStore : AuthRepo.StoreState := { root := "/auth", fs := [], db := [] }

def authG : Auth :=
  { id := "g.json", provider := "gemini", label := "", status := "active",
    fileName := "", attributes := none,
    metadata := some [("type", JVal.str "gemini")],
    createdAt := 1, updatedAt := 2, disabled := false }

def rowG : Row :=
  { provider := "gemini", label := "", fileName := "g.json", payload := authG,
    createdAt := 1, updatedAt := 2 }

def stG : AuthRepo.StoreState :=
  { root := "/auth",
    fs := [("/auth/g.json", { content := .obj [("type", JVal.str "gemini")], mtime := 4 })],
    db := [("g.json", rowG)] }

def authGdel : Auth := { authG with disabled := true }

/-- A disabled record whose file name differs from its id. -/
def authC2x : Auth := { authGdel with fileName := "other.json" }

def authC1 : Auth :=
  { id := "../../etc/passwd", provider := "gemini", label := "", status := "",
    fileName := "ok.json", attributes := none, metadata := some [],
    createdAt := 0, updatedAt := 0, disabled := false }

def authC1seg : Auth := { authC1 with fileName := "" }

def authC10 : Auth := { authC1 with id := "a..b.json", fileName := "" }

def authC8 : Auth := { authC1 with id := "./a.json", fileName := "" }

def reqC4 : Credentials.CredentialRequest :=
  { id := "", provider := "Gemini", label := "", attributes := none,
    metadata := none, disabled := false }

/-- The record produced by the create path for reqC4 with uuid `u1` at time 5. -/
def authC4out : Auth :=
  { id := "gemini-u1.json", provider := "Gemini", label := "", status := "active",
    fileName := "gemini-u1.json", attributes := some [],
    metadata := some [("type", JVal.str "Gemini")],
    createdAt := 5, updatedAt := 5, disabled := false }

def stC5w : AuthRepo.StoreState :=
  { root := "/auth",
    fs := [("/auth/gemini-1.json",
            { content := .obj [("type", JVal.str "gemini"), ("label", JVal.str "dev key")],
              mtime := 9 })],
    db := [] }

def stC5x : AuthRepo.StoreState :=
  { root := "/auth",
    fs := [("/auth/g.json", { content := .obj [("type", JVal.str "gemini")], mtime := 5 })],
    db := [("g.json", rowG)] }

def stC6 : AuthRepo.StoreState :=
  { root := "/auth",
    fs := [("/auth/e.json", { content := .empty, mtime := 3 })],
    db := [("gone.json", rowG)] }

def stP : PgStore.PState := { authDir := "/auth", fs := [("stale.json", "x")] }

/-! # Theorems -/

/-! ## Association-list lemmas -/

theorem lookupKey_eraseKey_self {α : Type} (l : List (String × α)) (k : String) :
    lookupKey (eraseKey k l) k = none := by
  induction l with
  | nil => rfl
  | cons h t ih =>
      obtain ⟨k', v⟩ := h
      by_cases hk : k' = k <;> simp [eraseKey, hk, lookupKey, ih]

theorem lookupKey_insertKey_self {α : Type} (l : List (String × α)) (k : String) (v : α) :
    lookupKey (insertKey k v l) k = some v := by
  induction l with
  | nil => simp [insertKey, lookupKey]
  | cons h t ih =>
      obtain ⟨k', v'⟩ := h
      by_cases hk : k' = k <;> simp [insertKey, hk, lookupKey, ih]

theorem insertKey_fresh {α : Type} (l : List (String × α)) (k : String) (v : α)
    (h : lookupKey l k = none) : insertKey k v l = l ++ [(k, v)] := by
  induction l with
  | nil => rfl
  | cons hd t ih =>
      obtain ⟨k', v'⟩ := hd
      by_cases hk : k' = k
      · simp [lookupKey, hk] at h
      · simp [lookupKey, hk] at h
        simp [insertKey, hk, ih h]

theorem lookup_of_mem_nodup {α : Type} (l : List (String × α)) (k : String) (v : α)
    (hmem : (k, v) ∈ l) (hnd : (l.map Prod.fst).Nodup) : lookupKey l k = some v := by
  induction l with
  | nil => simp at hmem
  | cons hd t ih =>
      obtain ⟨k', v'⟩ := hd
      simp only [List.map_cons, List.nodup_cons] at hnd
      rcases List.mem_cons.mp hmem with heq | htail
      · obtain ⟨hk, hv⟩ := Prod.mk.injEq .. ▸ heq
        simp [lookupKey, hk.symm, hv]
      · have hne : k' ≠ k := by
          intro hkk
          exact hnd.1 (hkk ▸ (List.mem_map.mpr ⟨(k, v), htail, rfl⟩))
        simp [lookupKey, hne, ih htail hnd.2]

theorem lookupKey_upsertRow_self (db : List (String × Row)) (k : String) (r : Row) :
    lookupKey (AuthRepo.upsertRow k r db) k =
      some (match lookupKey db k with
            | some old => { r with createdAt := old.createdAt }
            | none => r) := by
  induction db with
  | nil => simp [AuthRepo.upsertRow, lookupKey]
  | cons hd t ih =>
      obtain ⟨k', old⟩ := hd
      by_cases hk : k' = k <;> simp [AuthRepo.upsertRow, hk, lookupKey, ih]

/-! ## String lemmas -/

theorem strData_append (s t : String) : (s ++ t).data = s.data ++ t.data := by
  cases s; cases t; rfl

theorem strExt {s t : String} (h : s.data = t.data) : s = t := by
  cases s; cases t; exact congrArg String.mk h

theorem strMk_data (s : String) : String.mk s.data = s := by
  cases s; rfl

/-- A string whose contents contain no occurrence of the pattern does not
    start with the pattern. -/
theorem startsWithSeg_false_of_hasSub_false (pat l : List Char)
    (h : hasSub pat l = false) : startsWithSeg pat l = false := by
  cases l with
  | nil => simpa [hasSub] using h
  | cons c cs =>
      simp only [hasSub, Bool.or_eq_false_iff] at h
      exact h.1

/-! ## Path-model lemmas -/

theorem splitSlashAux_cons (c : Char) (cs : List Char) :
    splitSlashAux (c :: cs) =
      if c = '/' then ([], (splitSlashAux cs).1 :: (splitSlashAux cs).2)
      else (c :: (splitSlashAux cs).1, (splitSlashAux cs).2) := rfl

theorem splitSlashAux_append (a b : List Char) :
    splitSlashAux (a ++ '/' :: b) =
      ((splitSlashAux a).1, (splitSlashAux a).2 ++ splitSlash b) := by
  induction a with
  | nil => rfl
  | cons c cs ih =>
      by_cases hc : c = '/' <;>
        simp [List.cons_append, splitSlashAux_cons, hc, ih]

theorem splitSlash_append (a b : List Char) :
    splitSlash (a ++ '/' :: b) = splitSlash a ++ splitSlash b := by
  simp [splitSlash, splitSlashAux_append]

theorem splitSlash_cons_slash (l : List Char) :
    splitSlash ('/' :: l) = [] :: splitSlash l := by
  simp [splitSlash, splitSlashAux]

theorem joinSegs_splitSlashAux (l : List Char) :
    joinSegs ((splitSlashAux l).1 :: (splitSlashAux l).2) = l := by
  induction l with
  | nil => rfl
  | cons c cs ih =>
      by_cases hc : c = '/'
      · subst hc
        simp only [splitSlashAux, if_pos rfl]
        show ([] : List Char) ++ '/' :: joinSegs ((splitSlashAux cs).1 :: (splitSlashAux cs).2) = _
        simp [ih]
      · simp only [splitSlashAux, if_neg hc]
        cases h2 : (splitSlashAux cs).2 with
        | nil =>
            rw [h2] at ih
            simp only [joinSegs] at ih ⊢
            simp [ih]
        | cons x xs =>
            rw [h2] at ih
            simp only [joinSegs] at ih ⊢
            rw [List.cons_append, ih]

theorem joinSegs_splitSlash (l : List Char) : joinSegs (splitSlash l) = l :=
  joinSegs_splitSlashAux l

theorem splitSlash_ne_nil (l : List Char) : splitSlash l ≠ [] := by
  simp [splitSlash]

theorem joinSegs_append (a b : List (List Char)) (ha : a ≠ []) (hb : b ≠ []) :
    joinSegs (a ++ b) = joinSegs a ++ '/' :: joinSegs b := by
  induction a with
  | nil => exact absurd rfl ha
  | cons s rest ih =>
      cases rest with
      | nil =>
          cases b with
          | nil => exact absurd rfl hb
          | cons x xs => simp [joinSegs]
      | cons t ts =>
          have h1 : joinSegs (s :: t :: ts ++ b) = s ++ '/' :: joinSegs (t :: ts ++ b) := by
            cases b <;> simp [joinSegs]
          rw [List.cons_append] at h1 ⊢
          rw [h1, ih (by simp) ]
          simp [joinSegs]

theorem canonSeg_spec (s : List Char) (h : canonSeg s = true) :
    s ≠ [] ∧ s ≠ ['.'] ∧ s ≠ ['.', '.'] := by
  by_cases hc : s = [] ∨ s = ['.'] ∨ s = ['.', '.']
  · simp [canonSeg, hc] at h
  · push_neg at hc
    exact hc

theorem cleanStep_canon (rooted : Bool) (stack : List (List Char)) (seg : List Char)
    (h : canonSeg seg = true) : cleanStep rooted stack seg = seg :: stack := by
  obtain ⟨h1, h2, h3⟩ := canonSeg_spec seg h
  simp [cleanStep, h1, h2, h3]

theorem cleanStep_empty (rooted : Bool) (stack : List (List Char)) :
    cleanStep rooted stack [] = stack := by
  simp [cleanStep]

theorem foldl_cleanStep_canon (rooted : Bool) (segs : List (List Char))
    (acc : List (List Char)) (h : ∀ s ∈ segs, canonSeg s = true) :
    segs.foldl (cleanStep rooted) acc = segs.reverse ++ acc := by
  induction segs generalizing acc with
  | nil => simp
  | cons s rest ih =>
      rw [List.foldl_cons, cleanStep_canon rooted acc s (h s (by simp)),
        ih (s :: acc) (fun x hx => h x (by simp [hx]))]
      simp

theorem cleanSegs_canon (rooted : Bool) (segs : List (List Char))
    (h : ∀ s ∈ segs, canonSeg s = true) : cleanSegs rooted segs = segs := by
  simp [cleanSegs, foldl_cleanStep_canon rooted segs [] h]

theorem cleanSegs_empty_cons (rooted : Bool) (segs : List (List Char))
    (h : ∀ s ∈ segs, canonSeg s = true) : cleanSegs rooted ([] :: segs) = segs := by
  rw [cleanSegs, List.foldl_cons, cleanStep_empty, foldl_cleanStep_canon rooted segs [] h]
  simp

theorem canonRel_segs (p : String) (h : canonRel p = true) :
    ∀ s ∈ splitSlash p.data, canonSeg s = true := by
  simpa [canonRel, List.all_eq_true] using h

theorem canonAbs_elim (p : String) (h : canonAbs p = true) :
    ∃ r, p.data = '/' :: r ∧ ∀ s ∈ splitSlash r, canonSeg s = true := by
  unfold canonAbs at h
  cases hd : p.data with
  | nil => rw [hd] at h; simp at h
  | cons c rest =>
      rw [hd] at h
      simp only [Bool.and_eq_true, List.all_eq_true, decide_eq_true_eq] at h
      exact ⟨rest, by rw [h.1], fun s hs => h.2 s hs⟩

theorem canon_not_rooted (n : List Char)
    (hn : ∀ s ∈ splitSlash n, canonSeg s = true) : isRooted n = false := by
  cases n with
  | nil => rfl
  | cons c cs =>
      by_cases hc : c = '/'
      · exfalso
        have hmem : ([] : List Char) ∈ splitSlash (c :: cs) := by
          rw [hc, splitSlash_cons_slash]
          simp
        have := hn [] hmem
        simp [canonSeg] at this
      · simp [isRooted, hc]

theorem canon_ne_nil (n : List Char)
    (hn : ∀ s ∈ splitSlash n, canonSeg s = true) : n ≠ [] := by
  intro h
  subst h
  have hmem : ([] : List Char) ∈ splitSlash ([] : List Char) := by
    simp [splitSlash, splitSlashAux]
  have := hn [] hmem
  simp [canonSeg] at this

theorem cleanChars_rooted (r : List Char)
    (hc : ∀ s ∈ splitSlash r, canonSeg s = true) :
    cleanChars ('/' :: r) = '/' :: r := by
  have h1 : isRooted ('/' :: r) = true := by simp [isRooted]
  have h2 : splitSlash ('/' :: r) = [] :: splitSlash r := splitSlash_cons_slash r
  have h3 : cleanSegs true ([] :: splitSlash r) = splitSlash r :=
    cleanSegs_empty_cons true _ hc
  have h4 : renderSegs true (splitSlash r) = '/' :: joinSegs (splitSlash r) := by
    cases hsp : splitSlash r with
    | nil => exact absurd hsp (splitSlash_ne_nil r)
    | cons a as => simp [renderSegs]
  calc cleanChars ('/' :: r)
      = renderSegs (isRooted ('/' :: r)) (cleanSegs (isRooted ('/' :: r)) (splitSlash ('/' :: r))) := rfl
    _ = renderSegs true (cleanSegs true ([] :: splitSlash r)) := by rw [h1, h2]
    _ = '/' :: joinSegs (splitSlash r) := by rw [h3, h4]
    _ = '/' :: r := by rw [joinSegs_splitSlash]

theorem cleanChars_rel (n : List Char)
    (hn : ∀ s ∈ splitSlash n, canonSeg s = true) :
    cleanChars n = n := by
  have hne : n ≠ [] := canon_ne_nil n hn
  have h1 : isRooted n = false := canon_not_rooted n hn
  cases n with
  | nil => exact absurd rfl hne
  | cons c cs =>
      calc cleanChars (c :: cs)
          = renderSegs (isRooted (c :: cs)) (cleanSegs (isRooted (c :: cs)) (splitSlash (c :: cs))) := rfl
        _ = renderSegs false (cleanSegs false (splitSlash (c :: cs))) := by rw [h1]
        _ = renderSegs false (splitSlash (c :: cs)) := by rw [cleanSegs_canon false _ hn]
        _ = joinSegs (splitSlash (c :: cs)) := by
              cases hsp : splitSlash (c :: cs) with
              | nil => exact absurd hsp (splitSlash_ne_nil _)
              | cons a as => simp [renderSegs]
        _ = c :: cs := joinSegs_splitSlash _

theorem goClean_abs (root : String) (hroot : canonAbs root = true) :
    goClean root = root := by
  obtain ⟨r, hr, hrc⟩ := canonAbs_elim root hroot
  unfold goClean
  rw [hr, cleanChars_rooted r hrc, ← hr, strMk_data]

theorem goClean_rel (p : String) (hp : canonRel p = true) : goClean p = p := by
  unfold goClean
  rw [cleanChars_rel p.data (canonRel_segs p hp), strMk_data]

theorem data_append_abs_rel (root name : String) (r : List Char)
    (hr : root.data = '/' :: r) :
    (root ++ "/" ++ name).data = '/' :: (r ++ '/' :: name.data) := by
  have hslash : ("/" : String).data = ['/'] := rfl
  rw [strData_append, strData_append, hr, hslash]
  simp

theorem goClean_abs_rel (root name : String)
    (hroot : canonAbs root = true) (hname : canonRel name = true) :
    goClean (root ++ "/" ++ name) = root ++ "/" ++ name := by
  obtain ⟨r, hr, hrc⟩ := canonAbs_elim root hroot
  have hn := canonRel_segs name hname
  have hall : ∀ s ∈ splitSlash (r ++ '/' :: name.data), canonSeg s = true := by
    intro s hs
    rw [splitSlash_append] at hs
    rcases List.mem_append.mp hs with h | h
    · exact hrc s h
    · exact hn s h
  unfold goClean
  rw [data_append_abs_rel root name r hr, cleanChars_rooted _ hall,
    ← data_append_abs_rel root name r hr, strMk_data]

theorem canonAbs_ne_empty (root : String) (hroot : canonAbs root = true) :
    root ≠ "" := by
  obtain ⟨r, hr, _⟩ := canonAbs_elim root hroot
  intro h
  rw [h] at hr
  simp at hr

theorem goJoin_canon (root name : String)
    (hroot : canonAbs root = true) (hname : canonRel name = true) :
    goJoin root name = root ++ "/" ++ name := by
  simp only [goJoin, if_neg (canonAbs_ne_empty root hroot)]
  exact goClean_abs_rel root name hroot hname

theorem filter_canon (ss : List (List Char))
    (h : ∀ s ∈ ss, canonSeg s = true) :
    ss.filter (fun s => !s.isEmpty) = ss := by
  apply List.filter_eq_self.mpr
  intro s hs
  obtain ⟨h1, _, _⟩ := canonSeg_spec s (h s hs)
  cases s with
  | nil => exact absurd rfl h1
  | cons a as => rfl

theorem dropShared_append (as bs : List (List Char)) :
    dropShared as (as ++ bs) = ([], bs) := by
  induction as with
  | nil => cases bs <;> rfl
  | cons a rest ih => simp [dropShared, ih]

theorem goRel_canon (root name : String)
    (hroot : canonAbs root = true) (hname : canonRel name = true) :
    goRel root (root ++ "/" ++ name) = .ok name := by
  obtain ⟨r, hr, hrc⟩ := canonAbs_elim root hroot
  have hn := canonRel_segs name hname
  have hcb : goClean root = root := goClean_abs root hroot
  have hct : goClean (root ++ "/" ++ name) = root ++ "/" ++ name :=
    goClean_abs_rel root name hroot hname
  have hdata : (root ++ "/" ++ name).data = '/' :: (r ++ '/' :: name.data) :=
    data_append_abs_rel root name r hr
  have hne : ¬(root ++ "/" ++ name = root) := by
    intro h
    have h2 := congrArg String.data h
    rw [hdata, hr] at h2
    have h3 := congrArg List.length h2
    simp [List.length_append] at h3
  have hdotb : ¬(root = ".") := by
    intro h
    rw [h] at hr
    have hdot : ("." : String).data = ['.'] := rfl
    rw [hdot] at hr
    simp at hr
  have hdott : ¬(root ++ "/" ++ name = ".") := by
    intro h
    have h2 := congrArg String.data h
    have hdot : ("." : String).data = ['.'] := rfl
    rw [hdata, hdot] at h2
    simp at h2
  have hrooted_b : isRooted root.data = true := by rw [hr]; simp [isRooted]
  have hrooted_t : isRooted (root ++ "/" ++ name).data = true := by
    rw [hdata]; simp [isRooted]
  have hbs : (splitSlash root.data).filter (fun s => !s.isEmpty) = splitSlash r := by
    rw [hr, splitSlash_cons_slash]
    simp only [List.filter_cons, List.isEmpty_nil, Bool.not_true, if_neg]
    · exact filter_canon _ hrc
  have hts : (splitSlash (root ++ "/" ++ name).data).filter (fun s => !s.isEmpty)
      = splitSlash r ++ splitSlash name.data := by
    rw [hdata, splitSlash_cons_slash, splitSlash_append]
    simp only [List.filter_cons, List.isEmpty_nil, Bool.not_true, List.filter_append]
    rw [if_neg (by simp), filter_canon _ hrc, filter_canon _ hn]
  simp only [goRel, hcb, hct, if_neg hne, if_neg hdotb, if_neg hdott,
    hrooted_b, hrooted_t, ne_eq, not_true_eq_false, ite_false, hbs, hts]
  rw [dropShared_append]
  simp only [List.head?_nil, List.length_nil, List.replicate_zero, List.nil_append]
  rw [joinSegs_splitSlash, strMk_data]
  simp

/-! ## Lower-casing and trimming lemmas -/

theorem data_mk (l : List Char) : (String.mk l).data = l := rfl

theorem lowerLook_mem (c : Char) (tbl : List (Char × Char)) :
    lowerLook c tbl = c ∨
      (lowerLook c tbl ∈ tbl.map Prod.snd ∧ c ∈ tbl.map Prod.fst) := by
  induction tbl with
  | nil => exact Or.inl rfl
  | cons p rest ih =>
      obtain ⟨u, l⟩ := p
      by_cases hc : c = u
      · refine Or.inr ⟨?_, ?_⟩
        · rw [show lowerLook c ((u, l) :: rest) = l from by simp [lowerLook, hc]]
          exact List.mem_cons_self _ _
        · rw [hc]
          exact List.mem_cons_self _ _
      · have hstep : lowerLook c ((u, l) :: rest) = lowerLook c rest := by
          simp [lowerLook, hc]
        rcases ih with h | ⟨h1, h2⟩
        · left
          rw [hstep, h]
        · refine Or.inr ⟨?_, ?_⟩
          · rw [hstep]
            exact List.mem_cons_of_mem _ h1
          · exact List.mem_cons_of_mem _ h2

theorem lowerLook_not_key (c : Char) (tbl : List (Char × Char))
    (h : c ∉ tbl.map Prod.fst) : lowerLook c tbl = c := by
  induction tbl with
  | nil => rfl
  | cons p rest ih =>
      obtain ⟨u, l⟩ := p
      simp only [List.map_cons, List.mem_cons] at h
      push_neg at h
      simp [lowerLook, h.1, ih h.2]

theorem lowerChar_mem_out (c : Char) :
    lowerChar c = c ∨
      (lowerChar c ∈ lowerPairs.map Prod.snd ∧ c ∈ lowerPairs.map Prod.fst) :=
  lowerLook_mem c lowerPairs

theorem lowers_not_key (d : Char) (hd : d ∈ lowerPairs.map Prod.snd) :
    d ∉ lowerPairs.map Prod.fst := by
  simp only [lowerPairs, List.map_cons, List.map_nil, List.mem_cons, List.not_mem_nil,
    or_false] at hd ⊢
  rcases hd with h | h | h | h | h | h | h | h | h | h | h | h | h |
    h | h | h | h | h | h | h | h | h | h | h | h | h <;> subst h <;> decide

theorem lowerChar_idem (c : Char) : lowerChar (lowerChar c) = lowerChar c := by
  rcases lowerChar_mem_out c with h | h
  · rw [h, h]
  · exact lowerLook_not_key _ _ (lowers_not_key _ h.1)

theorem isSpace_lowerChar (c : Char) : isSpaceChar (lowerChar c) = isSpaceChar c := by
  rcases lowerChar_mem_out c with h | h
  · rw [h]
  · obtain ⟨h1, h2⟩ := h
    have e1 : isSpaceChar (lowerChar c) = false := by
      simp only [lowerPairs, List.map_cons, List.map_nil, List.mem_cons,
        List.not_mem_nil, or_false] at h1
      rcases h1 with h | h | h | h | h | h | h | h | h | h | h | h | h |
        h | h | h | h | h | h | h | h | h | h | h | h | h <;> rw [h] <;> decide
    have e2 : isSpaceChar c = false := by
      simp only [lowerPairs, List.map_cons, List.map_nil, List.mem_cons,
        List.not_mem_nil, or_false] at h2
      rcases h2 with h | h | h | h | h | h | h | h | h | h | h | h | h |
        h | h | h | h | h | h | h | h | h | h | h | h | h <;> rw [h] <;> decide
    rw [e1, e2]

theorem dropWhile_map_lower (l : List Char) :
    List.dropWhile isSpaceChar (l.map lowerChar) =
      (List.dropWhile isSpaceChar l).map lowerChar := by
  have hf : (isSpaceChar ∘ lowerChar) = isSpaceChar := funext isSpace_lowerChar
  rw [List.dropWhile_map, hf]

theorem rdropWhile_map_lower (l : List Char) :
    List.rdropWhile isSpaceChar (l.map lowerChar) =
      (List.rdropWhile isSpaceChar l).map lowerChar := by
  unfold List.rdropWhile
  rw [← List.map_reverse, dropWhile_map_lower, List.map_reverse]

theorem dropWhile_rdropWhile_dropWhile (p : Char → Bool) (l : List Char) :
    List.dropWhile p (List.rdropWhile p (List.dropWhile p l)) =
      List.rdropWhile p (List.dropWhile p l) := by
  rcases hz : List.rdropWhile p (List.dropWhile p l) with _ | ⟨a, as⟩
  · simp
  · have hpre : List.rdropWhile p (List.dropWhile p l) <+: List.dropWhile p l :=
      List.rdropWhile_prefix _ _
    rw [hz] at hpre
    obtain ⟨t, ht⟩ := hpre
    have hpa : p a = false := by
      by_contra hpa
      simp only [Bool.not_eq_false] at hpa
      have hd : List.dropWhile p (List.dropWhile p l) = List.dropWhile p l :=
        List.dropWhile_idempotent p l
      rw [← ht, List.cons_append, List.dropWhile_cons_of_pos hpa] at hd
      have hlen := congrArg List.length hd
      rw [List.length_cons] at hlen
      have hle := (List.dropWhile_sublist (l := as ++ t) p).length_le
      omega
    rw [List.dropWhile_cons_of_neg (by simp [hpa])]

theorem trim_chars_idem (p : Char → Bool) (l : List Char) :
    List.rdropWhile p (List.dropWhile p (List.rdropWhile p (List.dropWhile p l))) =
      List.rdropWhile p (List.dropWhile p l) := by
  rw [dropWhile_rdropWhile_dropWhile, List.rdropWhile_idempotent]

theorem goTrim_data (s : String) :
    (goTrim s).data = List.rdropWhile isSpaceChar (List.dropWhile isSpaceChar s.data) := rfl

theorem goToLower_data (s : String) : (goToLower s).data = s.data.map lowerChar := rfl

theorem goToLower_goTrim_fix (s : String) :
    goToLower (goTrim (goToLower (goTrim s))) = goToLower (goTrim s) := by
  apply strExt
  rw [goToLower_data, goTrim_data, goToLower_data, goTrim_data]
  rw [dropWhile_map_lower, rdropWhile_map_lower, trim_chars_idem]
  rw [List.map_map]
  congr 1
  funext c
  exact lowerChar_idem c

theorem goToLower_goTrim_normalize (v : Option JVal) :
    goToLower (goTrim (AuthRepo.normalizeProvider v)) = AuthRepo.normalizeProvider v := by
  cases v with
  | none => decide
  | some j =>
      cases j with
      | other n =>
          show goToLower (goTrim "unknown") = "unknown"
          decide
      | str s =>
          simp only [AuthRepo.normalizeProvider]
          by_cases h : goTrim s ≠ ""
          · rw [if_pos h]
            exact goToLower_goTrim_fix s
          · rw [if_neg h]
            decide

theorem canonRel_ne_empty (p : String) (hp : canonRel p = true) : p ≠ "" := by
  intro h
  subst h
  simp [canonRel, splitSlash, splitSlashAux, canonSeg] at hp

theorem strStartsWith_false_of_strContains_false (s pat : String)
    (h : strContains s pat = false) : strStartsWith s pat = false :=
  startsWithSeg_false_of_hasSub_false pat.data s.data h

theorem relativeName_canon (root name : String)
    (hroot : canonAbs root = true) (hname : canonRel name = true)
    (hpref : strStartsWith name ".." = false) :
    AuthRepo.relativeName root (root ++ "/" ++ name) = .ok name := by
  obtain ⟨r, hr, _⟩ := canonAbs_elim root hroot
  have habs : goIsAbs (root ++ "/" ++ name) = true := by
    unfold goIsAbs
    rw [data_append_abs_rel root name r hr]
    simp [isRooted]
  simp only [AuthRepo.relativeName, habs, if_true, goClean_abs_rel root name hroot hname,
    goRel_canon root name hroot hname, hpref]
  simp [hpref]

theorem resolvePath_canon (root : String) (auth : Auth)
    (hroot : canonAbs root = true)
    (hname : canonRel (AuthRepo.effectiveName auth) = true)
    (hdots : strContains (AuthRepo.effectiveName auth) ".." = false) :
    AuthRepo.resolvePath root auth =
      .ok (root ++ "/" ++ AuthRepo.effectiveName auth, AuthRepo.effectiveName auth) := by
  have hne : AuthRepo.effectiveName auth ≠ "" := canonRel_ne_empty _ hname
  simp only [AuthRepo.resolvePath, if_neg hne, hdots, Bool.false_eq_true, if_false]
  rw [goJoin_canon root _ hroot hname]

theorem absoluteAuthPath_canon (dir id : String)
    (hdir : canonAbs dir = true) (hid : canonRel id = true)
    (hpref : strStartsWith id ".." = false) :
    PgStore.absoluteAuthPath dir id = .ok (dir ++ "/" ++ id) := by
  simp only [PgStore.absoluteAuthPath, goClean_rel id hid, hpref, Bool.false_eq_true, if_false,
    goJoin_canon dir id hdir hid, goRel_canon dir id hdir hid]

/-! ## Substring occurrence lemmas -/

theorem startsWithSeg_self_append (pat rest : List Char) :
    startsWithSeg pat (pat ++ rest) = true := by
  induction pat with
  | nil => rfl
  | cons p ps ih => simp [startsWithSeg, ih]

theorem hasSub_of_parts (pat pre post : List Char) :
    hasSub pat (pre ++ pat ++ post) = true := by
  induction pre with
  | nil =>
      cases pat with
      | nil => cases post <;> simp [hasSub, startsWithSeg]
      | cons q qs =>
          simp only [List.nil_append, List.cons_append]
          show (startsWithSeg (q :: qs) (q :: (qs ++ post)) || hasSub (q :: qs) (qs ++ post)) = true
          have h1 : startsWithSeg (q :: qs) (q :: (qs ++ post)) = true := by
            have h2 : (q :: (qs ++ post) : List Char) = (q :: qs) ++ post := rfl
            rw [h2]
            exact startsWithSeg_self_append _ _
          rw [h1]
          rfl
  | cons c cs ih =>
      simp only [List.cons_append]
      show (startsWithSeg pat (c :: (cs ++ pat ++ post)) || hasSub pat (cs ++ pat ++ post)) = true
      rw [ih]
      simp

theorem seg_mem_sub (s : List Char) (ss : List (List Char)) (h : s ∈ ss) :
    ∃ pre post, joinSegs ss = pre ++ s ++ post := by
  induction ss with
  | nil => simp at h
  | cons a rest ih =>
      rcases List.mem_cons.mp h with heq | htail
      · subst heq
        cases rest with
        | nil => exact ⟨[], [], by simp [joinSegs]⟩
        | cons x xs => exact ⟨[], '/' :: joinSegs (x :: xs), by simp [joinSegs]⟩
      · obtain ⟨pre, post, hjoin⟩ := ih htail
        cases rest with
        | nil => simp at htail
        | cons x xs =>
            refine ⟨a ++ '/' :: pre, post, ?_⟩
            rw [show joinSegs (a :: x :: xs) = a ++ '/' :: joinSegs (x :: xs) from rfl, hjoin]
            simp

theorem strContains_of_seg_mem (s : String) (h : ['.', '.'] ∈ splitSlash s.data) :
    strContains s ".." = true := by
  obtain ⟨pre, post, hjoin⟩ := seg_mem_sub _ _ h
  rw [joinSegs_splitSlash] at hjoin
  have hpat : (".." : String).data = ['.', '.'] := rfl
  unfold strContains
  rw [hpat, hjoin]
  exact hasSub_of_parts _ _ _

/-! ## More association-list and string lemmas -/

theorem lookupKey_append {α : Type} (a b : List (String × α)) (k : String) :
    lookupKey (a ++ b) k =
      (match lookupKey a k with
       | some v => some v
       | none => lookupKey b k) := by
  induction a with
  | nil => simp [lookupKey]
  | cons hd t ih =>
      obtain ⟨k', v'⟩ := hd
      by_cases hk : k' = k <;> simp [lookupKey, hk, ih]

theorem strAppend_right_inj (a x y : String) (h : a ++ x = a ++ y) : x = y := by
  have h2 := congrArg String.data h
  rw [strData_append, strData_append] at h2
  exact strExt (List.append_cancel_left h2)

theorem constantTimeCompareEq_iff (a b : List Char) :
    Credentials.constantTimeCompareEq a b = true ↔ a = b := by
  induction a generalizing b with
  | nil => cases b <;> simp [Credentials.constantTimeCompareEq]
  | cons x xs ih =>
      cases b with
      | nil => simp [Credentials.constantTimeCompareEq]
      | cons y ys => simp [Credentials.constantTimeCompareEq, ih]

theorem foldl_syncRow_canon (dir : String) (rows : List (String × String))
    (acc : List (String × String))
    (hdir : canonAbs dir = true)
    (hids : ∀ q ∈ rows, canonRel q.1 = true ∧ strStartsWith q.1 ".." = false)
    (hfresh : ∀ q ∈ rows, lookupKey acc (dir ++ "/" ++ q.1) = none)
    (hnodup : (rows.map Prod.fst).Nodup) :
    rows.foldl (PgStore.syncRow dir) acc =
      acc ++ rows.map (fun q => (dir ++ "/" ++ q.1, q.2)) := by
  induction rows generalizing acc with
  | nil => simp
  | cons q rest ih =>
      obtain ⟨hc, hpref⟩ := hids q (List.mem_cons_self _ _)
      have hpath := absoluteAuthPath_canon dir q.1 hdir hc hpref
      have hstep : PgStore.syncRow dir acc q = acc ++ [(dir ++ "/" ++ q.1, q.2)] := by
        simp only [PgStore.syncRow, hpath]
        exact insertKey_fresh acc _ _ (hfresh q (List.mem_cons_self _ _))
      have hfresh2 : ∀ x ∈ rest,
          lookupKey (acc ++ [(dir ++ "/" ++ q.1, q.2)]) (dir ++ "/" ++ x.1) = none := by
        intro x hx
        rw [lookupKey_append, hfresh x (List.mem_cons_of_mem _ hx)]
        have hne : ¬(dir ++ "/" ++ q.1 = dir ++ "/" ++ x.1) := by
          intro hEq
          have hq1 := strAppend_right_inj (dir ++ "/") _ _ hEq
          have hq : q.1 ∉ rest.map Prod.fst := (List.nodup_cons.mp hnodup).1
          exact hq (hq1 ▸ List.mem_map_of_mem _ hx)
        simp [lookupKey, hne]
      rw [List.foldl_cons, hstep,
        ih (acc ++ [(dir ++ "/" ++ q.1, q.2)])
          (fun x hx => hids x (List.mem_cons_of_mem _ hx))
          hfresh2
          ((List.nodup_cons.mp hnodup).2)]
      simp

/-! ## Claim theorems -/

/-- C1 (counterexample): the claim says any Save whose record id OR file
    name contains a parent-directory segment fails with no file written and
    no row upserted.  For a record with id `../../etc/passwd` but a clean
    non-blank file name `ok.json`, the resolver only inspects the file name:
    Save succeeds, writes `/auth/ok.json`, and upserts a row keyed by the
    traversal id. -/
theorem save_accepts_traversal_id_when_filename_clean :
    strContains authC1.id ".." = true ∧
    (AuthRepo.Save emptyStore 7 authC1).1.toOption ≠ none ∧
    lookupKey (AuthRepo.Save emptyStore 7 authC1).2.fs "/auth/ok.json" ≠ none ∧
    lookupKey (AuthRepo.Save emptyStore 7 authC1).2.db "../../etc/passwd" ≠ none := by
  exact ⟨by decide, by decide, by decide, by decide⟩

/-- C1 (amended): for every Save call whose effective name — the trimmed
    file name when non-blank, otherwise the trimmed id — contains a
    parent-directory `..` segment, path resolution fails with the
    invalid-relative-path error, Save returns that error, and the store
    state (mirror files and rows) is unchanged. -/
theorem save_rejects_parent_segment (st : AuthRepo.StoreState) (now : Nat) (auth : Auth)
    (hid : goTrim auth.id ≠ "")
    (hseg : ['.', '.'] ∈ splitSlash (AuthRepo.effectiveName auth).data) :
    AuthRepo.Save st now auth =
      (.error ("auth store: invalid relative path " ++ AuthRepo.effectiveName auth), st) := by
  have hsub : strContains (AuthRepo.effectiveName auth) ".." = true :=
    strContains_of_seg_mem _ hseg
  have hne : AuthRepo.effectiveName auth ≠ "" := by
    intro h
    rw [h] at hseg
    simp [splitSlash, splitSlashAux] at hseg
  simp [AuthRepo.Save, AuthRepo.resolvePath, if_neg hid, if_neg hne, hsub]

/-- C1 (witness): the amended theorem applied to a concrete record whose id
    is `../../etc/passwd` and whose file name is blank. -/
theorem save_rejects_parent_segment_witness :
    AuthRepo.Save emptyStore 3 authC1seg =
      (.error ("auth store: invalid relative path " ++ AuthRepo.effectiveName authC1seg),
       emptyStore) :=
  save_rejects_parent_segment emptyStore 3 authC1seg (by decide) (by decide)

/-- C10: for every record whose effective name (file name, falling back to
    the id when blank) contains the two-character substring `..` anywhere —
    even inside an ordinary single-segment name — Save returns the
    invalid-relative-path error and leaves the store unchanged, because the
    resolver tests for the substring rather than for a parent-directory
    segment. -/
theorem save_rejects_dotdot_substring (st : AuthRepo.StoreState) (now : Nat) (auth : Auth)
    (hid : goTrim auth.id ≠ "")
    (hsub : strContains (AuthRepo.effectiveName auth) ".." = true) :
    AuthRepo.Save st now auth =
      (.error ("auth store: invalid relative path " ++ AuthRepo.effectiveName auth), st) := by
  have hne : AuthRepo.effectiveName auth ≠ "" := by
    intro h
    rw [h] at hsub
    exact absurd hsub (by decide)
  simp [AuthRepo.Save, AuthRepo.resolvePath, if_neg hid, if_neg hne, hsub]

/-- C10 (witness): `a..b.json` is a single-segment name that does not denote
    a parent directory, yet Save rejects it and the populated store is
    untouched. -/
theorem save_rejects_dotdot_substring_witness :
    (['.', '.'] ∉ splitSlash (AuthRepo.effectiveName authC10).data) ∧
    AuthRepo.Save stG 9 authC10 =
      (.error ("auth store: invalid relative path " ++ AuthRepo.effectiveName authC10), stG) :=
  ⟨by decide, save_rejects_dotdot_substring stG 9 authC10 (by decide) (by decide)⟩

/-- C8 (counterexample): the claim's round-trip law over every valid id
    without a parent-directory segment fails at id `./a.json`: resolution
    succeeds (no `..` substring) and returns the non-canonical relative
    identifier `./a.json`, but re-deriving the relative path from the
    returned absolute path `/auth/a.json` recovers `a.json`, not the
    original id. -/
theorem resolvePath_roundTrip_fails_on_dot_segment :
    strContains "./a.json" ".." = false ∧
    AuthRepo.resolvePath "/auth" authC8 = .ok ("/auth/a.json", "./a.json") ∧
    AuthRepo.relativeName "/auth" "/auth/a.json" = .ok "a.json" ∧
    ("a.json" : String) ≠ "./a.json" := by
  exact ⟨by decide, by decide, by decide, by decide⟩

/-- C8 (amended): for every id (effective name) already in canonical
    forward-slash form — cleaned, relative, no empty / dot / dot-dot
    segments — and containing no `..` substring, resolution over a canonical
    absolute root returns the absolute path `root/id` under the mirror root
    together with the id itself, and re-deriving the relative path from that
    absolute path and the root recovers the id (round-trip law). -/
theorem resolvePath_roundTrip_canonical (root : String) (auth : Auth)
    (hroot : canonAbs root = true)
    (hname : canonRel (AuthRepo.effectiveName auth) = true)
    (hdots : strContains (AuthRepo.effectiveName auth) ".." = false) :
    AuthRepo.resolvePath root auth =
      .ok (root ++ "/" ++ AuthRepo.effectiveName auth, AuthRepo.effectiveName auth) ∧
    goIsAbs (root ++ "/" ++ AuthRepo.effectiveName auth) = true ∧
    AuthRepo.relativeName root (root ++ "/" ++ AuthRepo.effectiveName auth) =
      .ok (AuthRepo.effectiveName auth) := by
  refine ⟨resolvePath_canon root auth hroot hname hdots, ?_,
    relativeName_canon root _ hroot hname
      (strStartsWith_false_of_strContains_false _ _ hdots)⟩
  obtain ⟨r, hr, _⟩ := canonAbs_elim root hroot
  unfold goIsAbs
  rw [data_append_abs_rel root _ r hr]
  simp [isRooted]

/-- C8 (witness): the amended round-trip law at root `/auth` and id
    `sub/key.json`. -/
theorem resolvePath_roundTrip_canonical_witness :
    AuthRepo.resolvePath "/auth" { authC8 with id := "sub/key.json" } =
      .ok ("/auth" ++ "/" ++ AuthRepo.effectiveName { authC8 with id := "sub/key.json" },
           AuthRepo.effectiveName { authC8 with id := "sub/key.json" }) ∧
    goIsAbs ("/auth" ++ "/" ++ AuthRepo.effectiveName { authC8 with id := "sub/key.json" }) = true ∧
    AuthRepo.relativeName "/auth"
        ("/auth" ++ "/" ++ AuthRepo.effectiveName { authC8 with id := "sub/key.json" }) =
      .ok (AuthRepo.effectiveName { authC8 with id := "sub/key.json" }) :=
  resolvePath_roundTrip_canonical "/auth" { authC8 with id := "sub/key.json" }
    (by decide) (by decide) (by decide)

/-- C9: the authorization check passes exactly when the configured
    management key is blank (open access), or the candidate secret — the
    trimmed `X-Management-Key` header, falling back to the `Authorization`
    header with an optional case-insensitive `Bearer` prefix — equals the
    trimmed configured key; the byte comparison of
    subtle.ConstantTimeCompare is equality. -/
theorem authorize_pass_iff (key xkey authHeader : String) :
    Credentials.authorize key xkey authHeader = true ↔
      (goTrim key = "" ∨ Credentials.authCandidate xkey authHeader = goTrim key) := by
  by_cases hk : goTrim key = ""
  · simp [Credentials.authorize, hk]
  · simp only [Credentials.authorize, if_neg hk]
    rw [constantTimeCompareEq_iff]
    constructor
    · intro h
      exact Or.inr (strExt h)
    · rintro (h | h)
      · exact absurd h hk
      · exact congrArg String.data h

/-- C2 (counterexample): the claim promises, for every disabled record with
    non-empty id, that the record's row is deleted and Get on the id then
    returns the not-found sentinel.  For the stored record `g.json` disabled
    with file name `other.json`, Save resolves the file name, returns an
    empty path, and deletes the row keyed `other.json` — but the record's
    row is keyed by the id, so it survives: Get on the id still returns the
    record, and the record's mirrored file `/auth/g.json` still exists. -/
theorem save_disabled_filename_mismatch_row_survives :
    authC2x.disabled = true ∧
    goTrim authC2x.id ≠ "" ∧
    goTrim authC2x.fileName ≠ goTrim authC2x.id ∧
    (AuthRepo.Save stG 9 authC2x).1 = .ok ("", authC2x) ∧
    AuthRepo.Get (AuthRepo.Save stG 9 authC2x).2 authC2x.id ≠ .ok none ∧
    lookupKey (AuthRepo.Save stG 9 authC2x).2.db (goTrim authC2x.id) ≠ none ∧
    lookupKey (AuthRepo.Save stG 9 authC2x).2.fs "/auth/g.json" ≠ none := by
  exact ⟨by decide, by decide, by decide, by decide, by decide, by decide, by decide⟩

/-- C2 (amended): for every disabled record with non-empty trimmed id whose
    effective name — the trimmed file name, falling back to the trimmed id
    when blank — contains no `..`, Save removes the file at the resolved
    effective name (succeeding also when it is already absent, since this
    holds for every starting state), deletes the row keyed by that resolved
    name, and returns an empty path; whenever the effective name is the id
    itself — in particular whenever the file name is blank — the record's
    file is then absent from the mirror and Get on that id returns the
    not-found sentinel. -/
theorem save_disabled_deletes_by_effective_name (st : AuthRepo.StoreState) (now : Nat)
    (auth : Auth)
    (hid : goTrim auth.id ≠ "")
    (hdis : auth.disabled = true)
    (hdots : strContains (AuthRepo.effectiveName auth) ".." = false) :
    AuthRepo.Save st now auth =
      (.ok ("", auth),
       { st with fs := eraseKey (goJoin st.root (AuthRepo.effectiveName auth)) st.fs,
                 db := eraseKey (AuthRepo.effectiveName auth) st.db }) ∧
    lookupKey (AuthRepo.Save st now auth).2.fs
      (goJoin st.root (AuthRepo.effectiveName auth)) = none ∧
    (AuthRepo.effectiveName auth = goTrim auth.id →
      AuthRepo.Get (AuthRepo.Save st now auth).2 auth.id = .ok none) := by
  have hne : AuthRepo.effectiveName auth ≠ "" := by
    simp only [AuthRepo.effectiveName]
    rcases Decidable.em (goTrim auth.fileName = "") with hfn | hfn
    · simp [hfn, hid]
    · simp [hfn]
  have hres : AuthRepo.resolvePath st.root auth =
      .ok (goJoin st.root (AuthRepo.effectiveName auth), AuthRepo.effectiveName auth) := by
    simp only [AuthRepo.resolvePath, if_neg hne, hdots, Bool.false_eq_true, if_false]
  have hsave : AuthRepo.Save st now auth =
      (.ok ("", auth),
       { st with fs := eraseKey (goJoin st.root (AuthRepo.effectiveName auth)) st.fs,
                 db := eraseKey (AuthRepo.effectiveName auth) st.db }) := by
    simp [AuthRepo.Save, if_neg hid, hres, hdis]
  refine ⟨hsave, ?_, ?_⟩
  · rw [hsave]
    exact lookupKey_eraseKey_self _ _
  · intro heq
    rw [hsave]
    simp only [AuthRepo.Get, if_neg hid, heq, lookupKey_eraseKey_self]

/-- C2 (witness): disabling the stored record `g.json` (blank file name, so
    the effective name is the id) on a populated store removes the file and
    the row, and Get then returns the sentinel. -/
theorem save_disabled_deletes_by_effective_name_witness :
    AuthRepo.Save stG 9 authGdel =
      (.ok ("", authGdel),
       { stG with fs := eraseKey (goJoin stG.root (AuthRepo.effectiveName authGdel)) stG.fs,
                  db := eraseKey (AuthRepo.effectiveName authGdel) stG.db }) ∧
    lookupKey (AuthRepo.Save stG 9 authGdel).2.fs
      (goJoin stG.root (AuthRepo.effectiveName authGdel)) = none ∧
    AuthRepo.Get (AuthRepo.Save stG 9 authGdel).2 authGdel.id = .ok none := by
  have h := save_disabled_deletes_by_effective_name stG 9 authGdel
    (by decide) (by decide) (by decide)
  exact ⟨h.1, h.2.1, h.2.2 (by decide)⟩

/-- C3: for every non-disabled record with non-empty trimmed id whose path
    resolves, Save succeeds returning the resolved path: it preserves
    `created_at` when already set (stamping it to now only when zero), sets
    `updated_at` to now — hence `updated_at ≥ created_at` when the clock has
    not run backwards — defaults an empty status to active, stores the
    resolved absolute path in `attributes.path`, and upserts the row keyed
    by the record id with the provider lower-cased. -/
theorem save_active_upserts (st : AuthRepo.StoreState) (now : Nat) (auth : Auth)
    (path rel : String)
    (hid : goTrim auth.id ≠ "")
    (hdis : auth.disabled = false)
    (hres : AuthRepo.resolvePath st.root auth = .ok (path, rel))
    (hclock : auth.createdAt ≤ now) :
    ∃ auth',
      (AuthRepo.Save st now auth).1 = .ok (path, auth') ∧
      auth'.createdAt = (if auth.createdAt = 0 then now else auth.createdAt) ∧
      (auth.createdAt ≠ 0 → auth'.createdAt = auth.createdAt) ∧
      auth'.updatedAt = now ∧
      auth'.createdAt ≤ auth'.updatedAt ∧
      auth'.status = (if auth.status = "" then statusActive else auth.status) ∧
      lookupKey (auth'.attributes.getD []) "path" = some path ∧
      ∃ r, lookupKey (AuthRepo.Save st now auth).2.db auth.id = some r ∧
        r.provider = goToLower (goTrim auth.provider) ∧
        r.payload = auth' ∧
        r.updatedAt = now := by
  simp only [AuthRepo.Save, if_neg hid, hres, hdis, Bool.false_eq_true, if_false]
  refine ⟨_, rfl, rfl, ?_, rfl, ?_, ?_, ?_, ?_⟩
  · intro h
    simp [h]
  · by_cases h0 : auth.createdAt = 0 <;> simp [h0, hclock]
  · simp
  · simp [lookupKey_insertKey_self]
  · simp only [AuthRepo.persistRecord, lookupKey_upsertRow_self]
    cases hdb : lookupKey st.db auth.id with
    | none => exact ⟨_, rfl, rfl, rfl, rfl⟩
    | some old => exact ⟨_, rfl, rfl, rfl, rfl⟩

/-- C3 (witness): saving the non-disabled record `g.json` (created_at 1) at
    time 5 over the populated store. -/
theorem save_active_upserts_witness :
    ∃ auth',
      (AuthRepo.Save stG 5 authG).1 = .ok ("/auth/g.json", auth') ∧
      auth'.createdAt = (if authG.createdAt = 0 then 5 else authG.createdAt) ∧
      (authG.createdAt ≠ 0 → auth'.createdAt = authG.createdAt) ∧
      auth'.updatedAt = 5 ∧
      auth'.createdAt ≤ auth'.updatedAt ∧
      auth'.status = (if authG.status = "" then statusActive else authG.status) ∧
      lookupKey (auth'.attributes.getD []) "path" = some "/auth/g.json" ∧
      ∃ r, lookupKey (AuthRepo.Save stG 5 authG).2.db authG.id = some r ∧
        r.provider = goToLower (goTrim authG.provider) ∧
        r.payload = auth' ∧
        r.updatedAt = 5 :=
  save_active_upserts stG 5 authG "/auth/g.json" "g.json"
    (by decide) (by decide) (by decide) (by decide)

/-- The PersistAuthFiles loop on a single existing non-empty JSON file:
    the parsed metadata is upserted under the derived relative id. -/
theorem persistAuthFiles_single_ingest (st : AuthRepo.StoreState) (p rel : String)
    (entry : FileEntry) (m : List (String × JVal))
    (hp : goTrim p ≠ "")
    (hlook : lookupKey st.fs (AuthRepo.ensureAbsolute st.root (goTrim p)) = some entry)
    (hcontent : entry.content = .obj m)
    (hrel : AuthRepo.relativeName st.root (AuthRepo.ensureAbsolute st.root (goTrim p)) = .ok rel) :
    AuthRepo.PersistAuthFiles st [p] =
      (.ok (),
       { st with
           db := AuthRepo.persistRecord st.db
                   (AuthRepo.ingestedAuth (AuthRepo.ensureAbsolute st.root (goTrim p))
                     rel m entry.mtime) }) := by
  simp [AuthRepo.PersistAuthFiles, AuthRepo.processPath, if_neg hp, hlook, hcontent, hrel]

/-- C5 (amended): ingesting an existing non-empty JSON file upserts a row
    whose provider is the file's `type` field lower-cased (default
    `unknown`), whose label is the first non-empty of `label`, `email`,
    `project_id`, and whose `updated_at` is the file's modification time;
    `created_at` is the modification time only when the row is newly
    inserted — an existing row keeps its prior `created_at` (the upsert
    never updates that column) — while the stored payload carries the
    modification time in both fields. -/
theorem persistAuthFiles_ingests_file (st : AuthRepo.StoreState) (p rel : String)
    (entry : FileEntry) (m : List (String × JVal))
    (hp : goTrim p ≠ "")
    (hlook : lookupKey st.fs (AuthRepo.ensureAbsolute st.root (goTrim p)) = some entry)
    (hcontent : entry.content = .obj m)
    (hrel : AuthRepo.relativeName st.root (AuthRepo.ensureAbsolute st.root (goTrim p)) = .ok rel) :
    (AuthRepo.PersistAuthFiles st [p]).1 = .ok () ∧
    (lookupKey (AuthRepo.PersistAuthFiles st [p]).2.db rel).map Row.provider =
      some (AuthRepo.normalizeProvider (lookupKey m "type")) ∧
    (lookupKey (AuthRepo.PersistAuthFiles st [p]).2.db rel).map Row.label =
      some (AuthRepo.preferredLabel m) ∧
    (lookupKey (AuthRepo.PersistAuthFiles st [p]).2.db rel).map Row.updatedAt =
      some entry.mtime ∧
    (lookupKey (AuthRepo.PersistAuthFiles st [p]).2.db rel).map Row.createdAt =
      some (match lookupKey st.db rel with
            | some old => old.createdAt
            | none => entry.mtime) ∧
    (lookupKey (AuthRepo.PersistAuthFiles st [p]).2.db rel).map
        (fun r => (r.payload.createdAt, r.payload.updatedAt)) =
      some (entry.mtime, entry.mtime) := by
  rw [persistAuthFiles_single_ingest st p rel entry m hp hlook hcontent hrel]
  refine ⟨rfl, ?_, ?_, ?_, ?_, ?_⟩ <;>
    · simp only [AuthRepo.persistRecord, AuthRepo.ingestedAuth]
      rw [lookupKey_upsertRow_self]
      cases hdb : lookupKey st.db rel with
      | none => simp [goToLower_goTrim_normalize]
      | some old => simp [goToLower_goTrim_normalize]

/-- C5 (witness): ingesting `/auth/gemini-1.json` holding
    `{"type":"gemini","label":"dev key"}` with modification time 9 into an
    empty table. -/
theorem persistAuthFiles_ingests_file_witness :
    ((AuthRepo.PersistAuthFiles stC5w ["gemini-1.json"]).1 = .ok () ∧
     (lookupKey (AuthRepo.PersistAuthFiles stC5w ["gemini-1.json"]).2.db "gemini-1.json").map
        Row.provider =
      some (AuthRepo.normalizeProvider
        (lookupKey [("type", JVal.str "gemini"), ("label", JVal.str "dev key")] "type")) ∧
     (lookupKey (AuthRepo.PersistAuthFiles stC5w ["gemini-1.json"]).2.db "gemini-1.json").map
        Row.label =
      some (AuthRepo.preferredLabel
        [("type", JVal.str "gemini"), ("label", JVal.str "dev key")]) ∧
     (lookupKey (AuthRepo.PersistAuthFiles stC5w ["gemini-1.json"]).2.db "gemini-1.json").map
        Row.updatedAt = some 9 ∧
     (lookupKey (AuthRepo.PersistAuthFiles stC5w ["gemini-1.json"]).2.db "gemini-1.json").map
        Row.createdAt =
      some (match lookupKey stC5w.db "gemini-1.json" with
            | some old => old.createdAt
            | none => 9) ∧
     (lookupKey (AuthRepo.PersistAuthFiles stC5w ["gemini-1.json"]).2.db "gemini-1.json").map
        (fun r => (r.payload.createdAt, r.payload.updatedAt)) = some (9, 9)) ∧
    AuthRepo.normalizeProvider
      (lookupKey [("type", JVal.str "gemini"), ("label", JVal.str "dev key")] "type") = "gemini" ∧
    AuthRepo.preferredLabel
      [("type", JVal.str "gemini"), ("label", JVal.str "dev key")] = "dev key" :=
  ⟨persistAuthFiles_ingests_file stC5w "gemini-1.json" "gemini-1.json"
     { content := .obj [("type", JVal.str "gemini"), ("label", JVal.str "dev key")], mtime := 9 }
     [("type", JVal.str "gemini"), ("label", JVal.str "dev key")]
     (by decide) (by decide) (by decide) (by decide),
   by decide, by decide⟩

/-- C5 (counterexample): the claim as stated also takes `created_at` from
    the file's modification time, but re-ingesting `g.json` (mtime 5) over
    an existing row with `created_at = 1` leaves the row's `created_at` at 1
    while `updated_at` becomes 5: ON CONFLICT never updates created_at. -/
theorem ingest_existing_row_keeps_created_at :
    Option.map Row.createdAt
      (lookupKey (AuthRepo.PersistAuthFiles stC5x ["g.json"]).2.db "g.json") = some 1 ∧
    Option.map Row.updatedAt
      (lookupKey (AuthRepo.PersistAuthFiles stC5x ["g.json"]).2.db "g.json") = some 5 ∧
    (1 : Nat) ≠ 5 := by
  exact ⟨by decide, by decide, by decide⟩

/-- C6: for every non-blank path handed to PersistAuthFiles: when the file
    is absent and the relative id derives, the call deletes the row (and
    returns no error even when the row is already absent, since the state is
    arbitrary); when the relative id cannot be derived the entry is skipped
    silently; and when the file exists but is empty the entry is skipped
    without deleting or upserting anything. -/
theorem persistAuthFiles_missing_and_empty (st : AuthRepo.StoreState) (p : String)
    (hp : goTrim p ≠ "") :
    (∀ rel : String,
      lookupKey st.fs (AuthRepo.ensureAbsolute st.root (goTrim p)) = none →
      AuthRepo.relativeName st.root (AuthRepo.ensureAbsolute st.root (goTrim p)) = .ok rel →
      AuthRepo.PersistAuthFiles st [p] = (.ok (), { st with db := eraseKey rel st.db })) ∧
    (∀ e : String,
      lookupKey st.fs (AuthRepo.ensureAbsolute st.root (goTrim p)) = none →
      AuthRepo.relativeName st.root (AuthRepo.ensureAbsolute st.root (goTrim p)) = .error e →
      AuthRepo.PersistAuthFiles st [p] = (.ok (), st)) ∧
    (∀ entry : FileEntry,
      lookupKey st.fs (AuthRepo.ensureAbsolute st.root (goTrim p)) = some entry →
      entry.content = .empty →
      AuthRepo.PersistAuthFiles st [p] = (.ok (), st)) := by
  refine ⟨?_, ?_, ?_⟩
  · intro rel hnone hrel
    simp [AuthRepo.PersistAuthFiles, AuthRepo.processPath, if_neg hp, hnone, hrel]
  · intro e hnone hrel
    simp [AuthRepo.PersistAuthFiles, AuthRepo.processPath, if_neg hp, hnone, hrel]
  · intro entry hsome hempty
    simp [AuthRepo.PersistAuthFiles, AuthRepo.processPath, if_neg hp, hsome, hempty]

/-- C6 (witness): on a store holding only the empty file `e.json` and a row
    `gone.json`: passing `gone.json` (file absent) deletes the row without
    error, passing `/etc/passwd` (outside the root, id underivable) is
    skipped silently, and passing `e.json` (empty file) changes nothing. -/
theorem persistAuthFiles_missing_and_empty_witness :
    AuthRepo.PersistAuthFiles stC6 ["gone.json"] =
      (.ok (), { stC6 with db := eraseKey "gone.json" stC6.db }) ∧
    AuthRepo.PersistAuthFiles stC6 ["/etc/passwd"] = (.ok (), stC6) ∧
    AuthRepo.PersistAuthFiles stC6 ["e.json"] = (.ok (), stC6) :=
  ⟨(persistAuthFiles_missing_and_empty stC6 "gone.json" (by decide)).1 "gone.json"
     (by decide) (by decide),
   (persistAuthFiles_missing_and_empty stC6 "/etc/passwd" (by decide)).2.1
     ("auth store: path /etc/passwd outside auth dir") (by decide) (by decide),
   (persistAuthFiles_missing_and_empty stC6 "e.json" (by decide)).2.2
     { content := .empty, mtime := 3 } (by decide) (by decide)⟩

/-- C7: a rebuild from a table whose identifiers are canonical relative
    paths (pairwise distinct, not escaping) succeeds and leaves the mirror
    directory holding exactly one file per row, at the row's relative path
    under the root, with content identical to the row's payload — and
    nothing else survives, whatever the directory held before. -/
theorem syncFromDatabase_rebuild (st : PgStore.PState) (rows : List (String × String))
    (hdir : canonAbs st.authDir = true)
    (hids : ∀ q ∈ rows, canonRel q.1 = true ∧ strStartsWith q.1 ".." = false)
    (hnodup : (rows.map Prod.fst).Nodup) :
    (PgStore.SyncFromDatabase st rows).1 = .ok () ∧
    (PgStore.SyncFromDatabase st rows).2.fs =
      rows.map (fun q => (st.authDir ++ "/" ++ q.1, q.2)) ∧
    ∀ q ∈ rows, lookupKey (PgStore.SyncFromDatabase st rows).2.fs
        (st.authDir ++ "/" ++ q.1) = some q.2 := by
  have hfold := foldl_syncRow_canon st.authDir rows [] hdir hids (fun q hq => rfl) hnodup
  have hfs : (PgStore.SyncFromDatabase st rows).2.fs =
      rows.map (fun q => (st.authDir ++ "/" ++ q.1, q.2)) := by
    simp [PgStore.SyncFromDatabase, hfold]
  refine ⟨rfl, hfs, ?_⟩
  intro q hq
  rw [hfs]
  apply lookup_of_mem_nodup
  · exact List.mem_map_of_mem _ hq
  · rw [List.map_map]
    have hcomp : (Prod.fst ∘ fun q : String × String => (st.authDir ++ "/" ++ q.1, q.2)) =
        ((fun s => st.authDir ++ "/" ++ s) ∘ Prod.fst) := rfl
    rw [hcomp, ← List.map_map]
    refine List.Nodup.map ?_ hnodup
    intro x y hxy
    simp only at hxy
    exact strAppend_right_inj (st.authDir ++ "/") x y hxy

/-- C7 (witness): rebuilding over a mirror holding a stale file, from a
    one-row table for `gemini-1.json`, yields exactly that one file with the
    byte-identical payload. -/
theorem syncFromDatabase_rebuild_witness :
    (PgStore.SyncFromDatabase stP [("gemini-1.json", "PAYLOAD")]).1 = .ok () ∧
    (PgStore.SyncFromDatabase stP [("gemini-1.json", "PAYLOAD")]).2.fs =
      [("gemini-1.json", "PAYLOAD")].map (fun q => (stP.authDir ++ "/" ++ q.1, q.2)) ∧
    ∀ q ∈ [("gemini-1.json", "PAYLOAD")],
      lookupKey (PgStore.SyncFromDatabase stP [("gemini-1.json", "PAYLOAD")]).2.fs
        (stP.authDir ++ "/" ++ q.1) = some q.2 :=
  syncFromDatabase_rebuild stP [("gemini-1.json", "PAYLOAD")]
    (by decide) (by decide) (by decide)

/-- C4 (counterexample): the invariant `metadata.type = lower(provider)`
    does not hold after the create-then-save path: creating with provider
    `Gemini` (no metadata supplied) defaults `metadata.type` to the verbatim
    provider `Gemini`, and saving persists it unchanged, while the
    lower-cased provider is `gemini`. -/
theorem create_save_metadata_type_mismatch :
    Credentials.createCredentialAuth reqC4 "u1" 5 = .ok authC4out ∧
    (lookupKey (AuthRepo.Save emptyStore 5 authC4out).2.db authC4out.id).map
        (fun r => lookupKey (r.payload.metadata.getD []) "type") =
      some (some (JVal.str "Gemini")) ∧
    (lookupKey (AuthRepo.Save emptyStore 5 authC4out).2.db authC4out.id).map
        (fun r => JVal.str (goToLower r.payload.provider)) =
      some (JVal.str "gemini") ∧
    (JVal.str "Gemini" : JVal) ≠ JVal.str "gemini" := by
  exact ⟨by decide, by decide, by decide, by decide⟩

/-- C4 (amended): after filesystem ingestion the persisted record's provider
    equals the lower-cased metadata `type` field (via normalizeProvider) and
    its metadata is the file's object; after CRUD create, `metadata.type` is
    defaulted to the trimmed provider verbatim — not lower-cased — only when
    the request carried no `type`, and the record's provider is the trimmed
    provider.  Save and the row upsert never rewrite `metadata.type`. -/
theorem metadata_type_provider_normalization :
    (∀ (st : AuthRepo.StoreState) (p rel : String) (entry : FileEntry)
       (m : List (String × JVal)),
      goTrim p ≠ "" →
      lookupKey st.fs (AuthRepo.ensureAbsolute st.root (goTrim p)) = some entry →
      entry.content = .obj m →
      AuthRepo.relativeName st.root (AuthRepo.ensureAbsolute st.root (goTrim p)) = .ok rel →
      (lookupKey (AuthRepo.PersistAuthFiles st [p]).2.db rel).map
          (fun r => r.payload.provider) =
        some (AuthRepo.normalizeProvider (lookupKey m "type")) ∧
      (lookupKey (AuthRepo.PersistAuthFiles st [p]).2.db rel).map
          (fun r => r.payload.metadata) = some (some m)) ∧
    (∀ (req : Credentials.CredentialRequest) (uuid : String) (now : Nat) (a : Auth),
      lookupKey (req.metadata.getD []) "type" = none →
      Credentials.createCredentialAuth req uuid now = .ok a →
      lookupKey (a.metadata.getD []) "type" = some (JVal.str (goTrim req.provider)) ∧
      a.provider = goTrim req.provider) := by
  constructor
  · intro st p rel entry m hp hlook hcontent hrel
    rw [persistAuthFiles_single_ingest st p rel entry m hp hlook hcontent hrel]
    refine ⟨?_, ?_⟩ <;>
      · simp only [AuthRepo.persistRecord, AuthRepo.ingestedAuth]
        rw [lookupKey_upsertRow_self]
        cases hdb : lookupKey st.db rel with
        | none => simp
        | some old => simp
  · intro req uuid now a htype hok
    by_cases hprov : goTrim req.provider = ""
    · simp [Credentials.createCredentialAuth, hprov] at hok
    · simp only [Credentials.createCredentialAuth, if_neg hprov] at hok
      injection hok with ha
      subst ha
      have hsome : (lookupKey (req.metadata.getD []) "type").isSome = false := by
        rw [htype]
        rfl
      constructor
      · simp only [hsome, Bool.false_eq_true, if_false]
        exact lookupKey_insertKey_self _ _ _
      · rfl

/-- C4 (witness): both halves of the amended statement at concrete inputs —
    the gemini ingestion store and the `Gemini` create request. -/
theorem metadata_type_provider_normalization_witness :
    ((lookupKey (AuthRepo.PersistAuthFiles stC5w ["gemini-1.json"]).2.db "gemini-1.json").map
        (fun r => r.payload.provider) =
      some (AuthRepo.normalizeProvider
        (lookupKey [("type", JVal.str "gemini"), ("label", JVal.str "dev key")] "type")) ∧
     (lookupKey (AuthRepo.PersistAuthFiles stC5w ["gemini-1.json"]).2.db "gemini-1.json").map
        (fun r => r.payload.metadata) =
      some (some [("type", JVal.str "gemini"), ("label", JVal.str "dev key")])) ∧
    (lookupKey (authC4out.metadata.getD []) "type" =
        some (JVal.str (goTrim reqC4.provider)) ∧
      authC4out.provider = goTrim reqC4.provider) :=
  ⟨metadata_type_provider_normalization.1 stC5w "gemini-1.json" "gemini-1.json"
     { content := .obj [("type", JVal.str "gemini"), ("label", JVal.str "dev key")], mtime := 9 }
     [("type", JVal.str "gemini"), ("label", JVal.str "dev key")]
     (by decide) (by decide) (by decide) (by decide),
   metadata_type_provider_normalization.2 reqC4 "u1" 5 authC4out
     (by decide) (by decide)⟩

end HelixRun
